import Mathlib

/-!
Verification of the core build algorithm of `src/script/build.js` (the franc
monorepo build script).  The script compiles linguistic reference data into
per-package language-detection artifacts.  This file gives a shallow
embedding of the relevant parts of the script and proves properties about
them:

* `filterTop` embeds the final filter stage of `createTopLanguages`
  (lines 426-452): rejection of candidates with neither scripts nor
  trigrams, the multi-script fatal error, and the warnings.
* `sortCmp` and `jsSort` embed the `sort` comparator (lines 324-336) and
  `Array.prototype.sort`.
* `generate` embeds the per-package pipeline (lines 46-143): the threshold
  filter, the allow-list filter, grouping by script, the singleton /
  multi-language script-group split, the trigram table, and the synthetic
  Japanese entry.

JavaScript specifics are modelled explicitly:

* `undefined` values (absent speaker counts, absent UDHR keys, absent
  scripts) are `Option.none`; a comparison `undefined >= t` is `false`
  (NaN semantics), which `speakersGEb` reflects.
* object tables are association lists updated with `objSet` (JS property
  assignment: overwrite if present, append otherwise) and read with
  `getKey`; a group key that is `undefined` is coerced to the string
  "undefined" by `keyStr`, as JS object-key coercion does.
* regular expressions are represented by their source strings; a RegExp
  object is always truthy, so `jsFalsyVal` is true only for an absent key
  or a stored `undefined`.
* the shared trigram-frequency table is a `TrigStore`, threaded through
  `generate` in state-passing style so that its (non-)mutation is visible
  in the types: the script reads it with `trigrams[info.udhr]` and copies
  with `.concat()` before the in-place `.reverse()`, so no step writes it.
-/

namespace Franc

/-- A resolved language record as used by `generate`: the fields of an
iso-639-3 entry that the script reads, extended with the `speakers`,
`udhr` and `script` fields that `createTopLanguages` attaches.  `script`
is `none` when the JS field is `undefined` (possible for a candidate kept
for its trigrams despite an empty script list, since `info.script =
scripts[0]` on an empty array yields `undefined`). -/
structure LanguageInfo where
  iso6393 : String
  name : String
  speakers : Option Nat
  udhr : Option String
  script : Option String
deriving DecidableEq, Repr

/-- A universe candidate just before the final filter of
`createTopLanguages` (line 426): `info.script` still holds the full list
of qualifying scripts computed by `scriptInformation` plus the manual
overrides. -/
structure Candidate where
  iso6393 : String
  name : String
  speakers : Option Nat
  udhr : Option String
  script : List String
deriving DecidableEq, Repr

/-- The fields of a package manifest that `generate` reads: `threshold`
(the JS guard `if (!threshold) return` fires on the falsy value `0`,
modelled here; an absent threshold is modelled by `0` as well) and
`includedlanguages` (absent list modelled as `[]`, as the script defaults
`pack.includedlanguages || []`). -/
structure PackageDescriptor where
  threshold : Int
  includedlanguages : List String
deriving DecidableEq, Repr

/-- The shared precomputed trigram-frequency source `trigrams` (UDHR key
to most-frequent-first trigram list); `none` is an absent key. -/
abbrev TrigStore := String → Option (List String)

/-- The global `expressions` table (script name to the source string of
its character-class RegExp); `none` is an absent script. -/
abbrev Expressions := String → Option String

/-- JS object-key coercion for a possibly-undefined script value:
`byScript[script]` with `script === undefined` uses the key
"undefined". -/
def keyStr : Option String → String
  | some s => s
  | none => "undefined"

/-- Reading `trigrams[info.udhr]`: an `undefined` key indexes nothing (no
"undefined" key exists in the trigram source), so the result is
`undefined`. -/
def trigLookup (store : TrigStore) : Option String → Option (List String)
  | some k => store k
  | none => none

/-- Property read on a JS object modelled as an association list: the
value at the first matching key, `none` when the key is absent. -/
def getKey {α : Type} : List (String × α) → String → Option α
  | [], _ => none
  | (k, v) :: rest, x => if k = x then some v else getKey rest x

/-- Property assignment on a JS object modelled as an association list:
overwrite the first binding of the key, or append a new binding. -/
def objSet {α : Type} : List (String × α) → String → α → List (String × α)
  | [], k, v => [(k, v)]
  | (k0, v0) :: rest, k, v =>
    if k0 = k then (k0, v) :: rest else (k0, v0) :: objSet rest k v

/-- Truthiness of `regularExpressions[script]`: falsy exactly when the key
is absent or holds `undefined`; a RegExp object is always truthy. -/
def jsFalsyVal : Option (Option String) → Bool
  | none => true
  | some none => true
  | some (some _) => false

/-- Lexicographic character-code comparison on character lists: the order
JS string comparison uses. -/
def charsLtb : List Char → List Char → Bool
  | [], [] => false
  | [], _ :: _ => true
  | _ :: _, [] => false
  | a :: as0, b :: bs0 =>
    if a.toNat < b.toNat then true
    else if b.toNat < a.toNat then false
    else charsLtb as0 bs0

/-- JS `a < b` on strings: lexicographic comparison by character code. -/
def strLtb (a b : String) : Bool :=
  charsLtb a.data b.data

/-- JS `a <= b` on strings (total order, so the negation of `b < a`). -/
def strLeb (a b : String) : Bool :=
  !strLtb b a

/-- The `alpha-sort` ascending comparator `alpha.asc` used for name
tie-breaks: lexicographic string comparison returning -1 / 0 / 1. -/
def alphaAsc (a b : String) : Int :=
  if strLtb a b then -1 else if strLtb b a then 1 else 0

/-- The `sort` comparator of build.js lines 324-336.  The JS control flow
is: `diff = b.speakers - a.speakers`; when both counts are numbers and
differ, `diff` is returned; otherwise `diff` is `0` or `NaN` and fails
`diff > 0 || diff < 0`; then `b.speakers === a.speakers` (true for two
equal numbers or two `undefined`s) falls to the name comparator; the
remaining mixed case returns `b.speakers ? 1 : -1`, so an `undefined`
or zero `b.speakers` yields -1. -/
def sortCmp (a b : LanguageInfo) : Int :=
  match b.speakers, a.speakers with
  | some bs, some as0 =>
    if (bs : Int) - (as0 : Int) > 0 ∨ (bs : Int) - (as0 : Int) < 0 then (bs : Int) - (as0 : Int)
    else alphaAsc a.name b.name
  | none, none => alphaAsc a.name b.name
  | some bs, none => if bs = 0 then -1 else 1
  | none, some _ => -1

/-- Insertion of one element into a sorted list under a JS comparator:
the element is placed before the first entry it compares `<= 0`
against. -/
def insertCmp {α : Type} (cmp : α → α → Int) (x : α) : List α → List α
  | [] => [x]
  | y :: ys => if cmp x y ≤ 0 then x :: y :: ys else y :: insertCmp cmp x ys

/-- Model of `Array.prototype.sort(cmp)` as insertion sort.  For a
consistent comparator this agrees with the stable sort the ECMAScript
specification requires; for an inconsistent comparator ECMAScript leaves
the order implementation-defined and this is one implementation. -/
def jsSort {α : Type} (cmp : α → α → Int) : List α → List α
  | [] => []
  | x :: xs => insertCmp cmp x (jsSort cmp xs)

/-- The predicate of the threshold filter callback (line 68):
`info.speakers >= threshold`.  An `undefined` count makes the comparison
NaN-false. -/
def speakersGEb (s : Option Nat) (t : Int) : Bool :=
  match s with
  | some v => decide (t ≤ (v : Int))
  | none => false

/-- The threshold filter of `generate` (lines 66-70): applied only when
the threshold is not the sentinel -1. -/
def thresholdFilter (t : Int) (list : List LanguageInfo) : List LanguageInfo :=
  if t ≠ -1 then list.filter (fun i => speakersGEb i.speakers t) else list

/-- The list resolution of `generate` (lines 54-76): the global universe,
restricted by the threshold filter, then by the allow-list filter when
`includedlanguages` is non-empty. -/
def resolveList (pack : PackageDescriptor) (top : List LanguageInfo) : List LanguageInfo :=
  if pack.includedlanguages ≠ [] then
    (thresholdFilter pack.threshold top).filter
      (fun i => pack.includedlanguages.contains i.iso6393)
  else thresholdFilter pack.threshold top

/-- First-occurrence deduplication: the key order of a JS object built by
pushing entries in list order (`createTopLanguagesByScript`). -/
def firstKeys : List String → List String
  | [] => []
  | k :: rest => k :: (firstKeys rest).filter (fun x => x ≠ k)

/-- The keys of `byScript` (line 78): the scripts of the resolved list in
first-appearance order, with `undefined` coerced to "undefined". -/
def scriptKeys (list : List LanguageInfo) : List String :=
  firstKeys (list.map (fun i => keyStr i.script))

/-- The members of one `byScript` group, in universe order
(`createTopLanguagesByScript`, lines 455-469). -/
def groupOf (list : List LanguageInfo) (k : String) : List LanguageInfo :=
  list.filter (fun i => keyStr i.script = k)

/-- The per-group filter of lines 81-92: drop the hardcoded redundant
codes `npi` and `yue`. -/
def pruned (g : List LanguageInfo) : List LanguageInfo :=
  g.filter (fun i => ¬(i.iso6393 = "npi" ∨ i.iso6393 = "yue"))

/-- Accumulator of the first group loop (lines 80-104): the `support`
pushes from singleton groups, the `regularExpressions` table, and the
`perScript` object (here an association list in key order). -/
structure GroupAcc where
  support : List LanguageInfo
  regs : List (String × Option String)
  perScript : List (String × List LanguageInfo)
deriving DecidableEq, Repr

/-- The crash message for the dereference `languages[0].iso6393` when a
group is empty after pruning: JS throws a TypeError there. -/
def typeErrorMessage : String :=
  "TypeError: Cannot read property iso6393 of undefined"

/-- The first group loop of `generate` (lines 80-104).  `G` is the pruned
group for a key.  A group of more than one language registers the script
pattern under the script key (unless the key is already truthy) and is
queued in `perScript`; otherwise the singleton branch pushes
`languages[0]` to the support list and registers the script pattern under
that language's own code - on an empty group this dereferences
`undefined` and the run crashes. -/
def processGroups (e : Expressions) (G : String → List LanguageInfo) (acc : GroupAcc) :
    List String → Except String GroupAcc
  | [] => .ok acc
  | script :: rest =>
    if 1 < (G script).length then
      processGroups e G
        ⟨acc.support,
         if jsFalsyVal (getKey acc.regs script) then objSet acc.regs script (e script)
         else acc.regs,
         acc.perScript ++ [(script, G script)]⟩ rest
    else
      match G script with
      | [] => .error typeErrorMessage
      | l0 :: _ =>
        processGroups e G
          ⟨acc.support ++ [l0], objSet acc.regs l0.iso6393 (e script), acc.perScript⟩ rest

/-- The console message of line 118 for a multi-language group member
without trigram data. -/
def warnNoTrigrams (i : LanguageInfo) : String :=
  "  Ignoring language without trigrams: " ++ i.iso6393 ++ " (" ++ i.name ++ ")"

/-- One multi-language group in the second loop (lines 113-120).  For a
member with trigram data, `trigrams[info.udhr]` is read from the shared
store, `.concat()` builds a fresh copy, `.reverse()` then mutates only
that copy, and `.join('|')` serializes it; the member is pushed to the
support list.  A member without data only logs a warning.  The store is
threaded through to model JS mutability; no operation of this loop
writes it. -/
def trigramGroup (store : TrigStore) (sup : List LanguageInfo)
    (obj : List (String × String)) (warns : List String) :
    List LanguageInfo → (List LanguageInfo × List (String × String) × List String) × TrigStore
  | [] => ((sup, obj, warns), store)
  | i :: rest =>
    match trigLookup store i.udhr with
    | some arr =>
      trigramGroup store (sup ++ [i])
        (objSet obj i.iso6393 (String.intercalate "|" ((arr ++ []).reverse))) warns rest
    | none => trigramGroup store sup obj (warns ++ [warnNoTrigrams i]) rest

/-- Accumulator and result of the second loop (lines 106-121): the grown
support list, the `data` table (script to code to trigram pattern), and
the warnings. -/
structure TrigAcc where
  support : List LanguageInfo
  data : List (String × List (String × String))
  warnings : List String
deriving DecidableEq, Repr

/-- The second loop of `generate` (lines 106-121): each queued
multi-language group contributes one `data[script]` object. -/
def processTrigrams (store : TrigStore) (sup : List LanguageInfo)
    (data : List (String × List (String × String))) (warns : List String) :
    List (String × List LanguageInfo) → TrigAcc × TrigStore
  | [] => (⟨sup, data, warns⟩, store)
  | (script, languages) :: rest =>
    processTrigrams (trigramGroup store sup [] warns languages).2
      (trigramGroup store sup [] warns languages).1.1
      (data ++ [(script, (trigramGroup store sup [] warns languages).1.2.1)])
      (trigramGroup store sup [] warns languages).1.2.2 rest

/-- The artifacts of one `generate` run that the claims are about: the
sorted support list, the `regularExpressions` table, the `data` table and
the warnings of the trigram loop. -/
structure Artifacts where
  support : List LanguageInfo
  regularExpressions : List (String × Option String)
  data : List (String × List (String × String))
  warnings : List String
deriving DecidableEq, Repr, Inhabited

/-- The per-package `generate` (lines 46-143) on the parts of its state
the claims concern.  `none` is the early return on a falsy threshold
(line 59).  After the two loops the synthetic Japanese pattern -
`expressions.Hiragana.source + '|' + expressions.Katakana.source` - is
stored under the fixed key "jpn" (lines 123-128; reading `.source` of an
absent script would itself throw), and the support list is sorted
(line 130). -/
def generate (e : Expressions) (top : List LanguageInfo) (pack : PackageDescriptor)
    (store : TrigStore) : Option (Except String Artifacts) × TrigStore :=
  if pack.threshold = 0 then (none, store)
  else
    match processGroups e (fun k => pruned (groupOf (resolveList pack top) k)) ⟨[], [], []⟩
        (scriptKeys (resolveList pack top)) with
    | .error m => (some (.error m), store)
    | .ok acc =>
      match e "Hiragana", e "Katakana" with
      | some hira, some kata =>
        (some (.ok ⟨jsSort sortCmp (processTrigrams store acc.support [] [] acc.perScript).1.support,
                    objSet acc.regs "jpn" (some (hira ++ "|" ++ kata)),
                    (processTrigrams store acc.support [] [] acc.perScript).1.data,
                    (processTrigrams store acc.support [] [] acc.perScript).1.warnings⟩),
         (processTrigrams store acc.support [] [] acc.perScript).2)
      | _, _ => (some (.error "TypeError: Cannot read property source of undefined"),
                 (processTrigrams store acc.support [] [] acc.perScript).2)

/-- The fatal message of lines 433-436 (string concatenation in the
source). -/
def multiScriptMessage : String :=
  "Woops, I found a language which uses more than " ++
  "one script. Franc is not build for that. Exiting."

/-- The rejection condition of line 428: no trigram data for the
candidate's UDHR key and no qualifying script. -/
def ignoredC (store : TrigStore) (c : Candidate) : Bool :=
  (trigLookup store c.udhr).isNone && c.script.isEmpty

/-- Speaker count above one million (the condition
`info.speakers > 1e6`); an `undefined` count fails it. -/
def bigSpeakersb (c : Candidate) : Bool :=
  match c.speakers with
  | some s => decide (1000000 < s)
  | none => false

/-- The truthiness guard plus the size test of line 439:
`info.speakers && info.speakers > 1e6`. -/
def warnCondb (c : Candidate) : Bool :=
  match c.speakers with
  | some s => decide (s ≠ 0) && decide (1000000 < s)
  | none => false

/-- The console message of lines 440-446 with its format arguments
substituted. -/
def warnMsg (c : Candidate) : String :=
  "Ignoring language with neither trigrams nor scripts: " ++ c.iso6393 ++
  " (" ++ c.name ++ ", " ++ (match c.speakers with
                             | some s => toString s
                             | none => "undefined") ++ ")"

/-- The collapse `info.script = scripts[0]` of line 430: a surviving
candidate keeps only the head of its script list (`undefined` when the
list is empty). -/
def toInfo (c : Candidate) : LanguageInfo :=
  ⟨c.iso6393, c.name, c.speakers, c.udhr, c.script.head?⟩

/-- The final filter stage of `createTopLanguages` (lines 426-450) as a
run over the candidate list: a candidate with more than one qualifying
script throws the fatal error; an `ignoredC` candidate is dropped,
logging `warnMsg` when `warnCondb` holds; every other candidate survives
as `toInfo`.  Returns the kept records and the warnings in order. -/
def filterTop (store : TrigStore) : List Candidate → Except String (List LanguageInfo × List String)
  | [] => .ok ([], [])
  | c :: rest =>
    if 1 < c.script.length then .error multiScriptMessage
    else
      match filterTop store rest with
      | .error m => .error m
      | .ok (kept, warns) =>
        .ok (if ignoredC store c then kept else toInfo c :: kept,
             if ignoredC store c && warnCondb c then warnMsg c :: warns else warns)

/-- The per-package runs at the bottom of the script (lines 41-44),
threading the shared trigram store through the packages in order. -/
def runPacks (e : Expressions) (top : List LanguageInfo) (store : TrigStore) :
    List PackageDescriptor → List (Option (Except String Artifacts))
  | [] => []
  | p :: rest =>
    (generate e top p store).1 :: runPacks e top (generate e top p store).2 rest

/-- The whole build: `createTopLanguages` runs once (here its final
filter stage over the prepared candidates, then the global sort of line
452), and only if it succeeds does any package run. -/
def buildAll (e : Expressions) (store : TrigStore) (cands : List Candidate)
    (packs : List PackageDescriptor) : Except String (List (Option (Except String Artifacts))) :=
  match filterTop store cands with
  | .error m => .error m
  | .ok (kept, _) => .ok (runPacks e (jsSort sortCmp kept) store packs)

/-- Support-list detection mechanism one: the code is a key of the
`regularExpressions` table (the ExpressionTable) in its own right. -/
def ownKey (a : Artifacts) (code : String) : Bool :=
  (getKey a.regularExpressions code).isSome

/-- Support-list detection mechanism two: the scripts under which the
code has a TrigramTable entry. -/
def trigramScripts (a : Artifacts) (code : String) : List String :=
  a.data.filterMap (fun p => if (getKey p.2 code).isSome then some p.1 else none)

/-- The coverage law of the specification: every supported code resolves
to exactly one mechanism - an own ExpressionTable key with no
TrigramTable entry, or no own key and a TrigramTable entry under exactly
one script. -/
def coverageOK (a : Artifacts) : Bool :=
  a.support.all (fun i =>
    (ownKey a i.iso6393 && (trigramScripts a i.iso6393).isEmpty) ||
    (!ownKey a i.iso6393 && (trigramScripts a i.iso6393).length = 1))

/-- The ordering the specification asserts of sorted lists: strictly more
speakers first, names ascending on equal counts, every known count
before every unknown one ("including those with zero speakers": a known
zero must still precede an unknown). -/
def specLEb (a b : LanguageInfo) : Bool :=
  match a.speakers, b.speakers with
  | some x, some y => decide (y < x) || (decide (x = y) && strLeb a.name b.name)
  | some _, none => true
  | none, some _ => false
  | none, none => true

/- Characterization helpers used by the theorems below (not part of the
embedding; each is proved equal to what the embedded loops produce). -/

/-- The singleton-branch support contributions of the first group loop,
in key order. -/
def sgList (G : String → List LanguageInfo) (keys : List String) : List LanguageInfo :=
  keys.filterMap (fun k => if 1 < (G k).length then none else (G k).head?)

/-- The `perScript` queue of the first group loop, in key order. -/
def multiPairs (G : String → List LanguageInfo) (keys : List String) :
    List (String × List LanguageInfo) :=
  keys.filterMap (fun k => if 1 < (G k).length then some (k, G k) else none)

/-- The members of one multi-language group that have trigram data. -/
def groupKept (store : TrigStore) (langs : List LanguageInfo) : List LanguageInfo :=
  langs.filter (fun i => (trigLookup store i.udhr).isSome)

/-- The `data[script]` object one multi-language group builds, starting
from a given object. -/
def groupObjFrom (store : TrigStore) (obj : List (String × String)) :
    List LanguageInfo → List (String × String)
  | [] => obj
  | i :: rest =>
    match trigLookup store i.udhr with
    | some arr =>
      groupObjFrom store (objSet obj i.iso6393 (String.intercalate "|" ((arr ++ []).reverse))) rest
    | none => groupObjFrom store obj rest

/-- The support contributions of the trigram loop, group by group. -/
def trigSupport (store : TrigStore) : List (String × List LanguageInfo) → List LanguageInfo
  | [] => []
  | (_, g) :: rest => groupKept store g ++ trigSupport store rest

/-! ### Lemmas about the JS object model -/

theorem getKey_objSet_self {α : Type} (m : List (String × α)) (k : String) (v : α) :
    getKey (objSet m k v) k = some v := by
  induction m with
  | nil => simp [objSet, getKey]
  | cons p rest ih =>
    obtain ⟨k0, v0⟩ := p
    by_cases h : k0 = k
    · subst h; simp [objSet, getKey]
    · simp [objSet, getKey, h, ih]

theorem getKey_objSet_ne {α : Type} (m : List (String × α)) (k x : String) (v : α)
    (hx : x ≠ k) : getKey (objSet m k v) x = getKey m x := by
  induction m with
  | nil =>
    have hkx : k ≠ x := fun h => hx h.symm
    simp [objSet, getKey, hkx]
  | cons p rest ih =>
    obtain ⟨k0, v0⟩ := p
    rw [objSet]
    by_cases h : k0 = k
    · have hne : k0 ≠ x := by rw [h]; exact fun hc => hx hc.symm
      rw [if_pos h]
      simp [getKey, hne]
    · rw [if_neg h]
      simp only [getKey]
      by_cases h0 : k0 = x
      · simp [h0]
      · simp [h0, ih]

theorem getKey_objSet_isSome {α : Type} (m : List (String × α)) (k x : String) (v : α) :
    (getKey (objSet m k v) x).isSome = true ↔ x = k ∨ (getKey m x).isSome = true := by
  by_cases h : x = k
  · subst h; simp [getKey_objSet_self]
  · rw [getKey_objSet_ne m k x v h]; simp [h]

theorem mem_firstKeys {l : List String} {x : String} : x ∈ firstKeys l ↔ x ∈ l := by
  induction l with
  | nil => simp [firstKeys]
  | cons k rest ih =>
    by_cases h : x = k
    · subst h; simp [firstKeys]
    · simp [firstKeys, List.mem_filter, ih, h]

theorem nodup_firstKeys (l : List String) : (firstKeys l).Nodup := by
  induction l with
  | nil => simp [firstKeys]
  | cons k rest ih =>
    rw [firstKeys, List.nodup_cons]
    refine ⟨?_, List.Nodup.filter _ ih⟩
    intro hmem
    rcases List.mem_filter.mp hmem with ⟨_, hne⟩
    simp at hne

theorem insertCmp_perm {α : Type} (cmp : α → α → Int) (x : α) (l : List α) :
    List.Perm (insertCmp cmp x l) (x :: l) := by
  induction l with
  | nil => simp [insertCmp]
  | cons y ys ih =>
    rw [insertCmp]
    by_cases h : cmp x y ≤ 0
    · simp [h]
    · rw [if_neg h]
      exact (ih.cons y).trans (List.Perm.swap x y ys)

theorem jsSort_perm {α : Type} (cmp : α → α → Int) (l : List α) :
    List.Perm (jsSort cmp l) l := by
  induction l with
  | nil => simp [jsSort]
  | cons x xs ih => exact (insertCmp_perm cmp x (jsSort cmp xs)).trans (ih.cons x)

theorem mem_jsSort {α : Type} {cmp : α → α → Int} {l : List α} {x : α} :
    x ∈ jsSort cmp l ↔ x ∈ l :=
  (jsSort_perm cmp l).mem_iff

/-! ### C4: the threshold law -/

/-- C4: for a package threshold T different from the sentinel -1, every
language the threshold filter retains has a known speaker count of at
least T (an unknown count always fails the filter); for T = -1 the
threshold filter removes nothing. -/
theorem threshold_law (t : Int) (l : List LanguageInfo) :
    (t ≠ -1 → ∀ i ∈ thresholdFilter t l, ∃ s, i.speakers = some s ∧ t ≤ (s : Int)) ∧
    thresholdFilter (-1) l = l := by
  constructor
  · intro ht i hi
    rw [thresholdFilter, if_pos ht] at hi
    rcases List.mem_filter.mp hi with ⟨_, hcond⟩
    cases hs : i.speakers with
    | none => rw [hs] at hcond; simp [speakersGEb] at hcond
    | some s =>
      rw [hs] at hcond
      simp only [speakersGEb] at hcond
      exact ⟨s, rfl, of_decide_eq_true hcond⟩
  · simp [thresholdFilter]

def c4a : LanguageInfo := ⟨"aaa", "Aaaish", some 7, none, some "Latin"⟩

/-- Witness for `threshold_law` at threshold 5 on a one-language
universe. -/
theorem threshold_law_witness :
    (∀ i ∈ thresholdFilter 5 [c4a], ∃ s, i.speakers = some s ∧ (5 : Int) ≤ (s : Int)) ∧
    thresholdFilter (-1) [c4a] = [c4a] :=
  ⟨(threshold_law 5 [c4a]).1 (by decide), (threshold_law 5 [c4a]).2⟩

/-! ### C2: the allow-list is applied after the threshold, not instead
of it -/

def c2a : LanguageInfo := ⟨"aaa", "Aaaish", some 5, none, some "Latin"⟩

def c2pack : PackageDescriptor := ⟨10, ["aaa"]⟩

/-- C2 (counterexample): a package with threshold 10 and allow-list
{aaa}, over a universe whose only language aaa has 5 speakers, resolves
to the empty list, not to the allow-listed language: the allow-list does
not override the threshold. -/
theorem included_override_cex :
    c2pack.includedlanguages ≠ [] ∧
    [c2a].filter (fun i => c2pack.includedlanguages.contains i.iso6393) = [c2a] ∧
    resolveList c2pack [c2a] = [] := by
  refine ⟨by decide, by decide, by decide⟩

/-- C2 (amended): for a package with a non-empty allow-list, the resolved
list contains exactly those universe languages whose code is in the set
and which also pass the threshold filter - the allow-list is a second
filter applied after the threshold, not an override of it. -/
theorem filter_of_threshold (t : Int) (q : LanguageInfo → Bool) (l : List LanguageInfo) :
    (thresholdFilter t l).filter q =
      l.filter (fun i => (decide (t = -1) || speakersGEb i.speakers t) && q i) := by
  by_cases ht : t = -1
  · subst ht
    simp [thresholdFilter]
  · rw [thresholdFilter, if_pos ht]
    induction l with
    | nil => rfl
    | cons i rest ih =>
      by_cases hsp : speakersGEb i.speakers t
      · simp [List.filter_cons, hsp, ht, ih]
      · simp [List.filter_cons, hsp, ht, ih]

theorem included_filter_conjunctive (pack : PackageDescriptor) (top : List LanguageInfo)
    (h : pack.includedlanguages ≠ []) :
    resolveList pack top = top.filter (fun i =>
      (decide (pack.threshold = -1) || speakersGEb i.speakers pack.threshold) &&
      pack.includedlanguages.contains i.iso6393) := by
  rw [resolveList, if_pos h, filter_of_threshold]

def c2b : LanguageInfo := ⟨"bbb", "Bee", some 20, none, some "Latin"⟩

/-- Witness for `included_filter_conjunctive`: a threshold-10 package
with allow-list {aaa, bbb} keeps exactly bbb (20 speakers) from a
universe holding aaa (5 speakers) and bbb. -/
theorem included_filter_conjunctive_witness :
    resolveList ⟨10, ["aaa", "bbb"]⟩ [c2a, c2b] = [c2a, c2b].filter (fun i =>
      (decide ((10 : Int) = -1) || speakersGEb i.speakers 10) &&
      ["aaa", "bbb"].contains i.iso6393) :=
  included_filter_conjunctive ⟨10, ["aaa", "bbb"]⟩ [c2a, c2b] (by decide)

/-! ### C5: a multi-script candidate aborts the whole build -/

theorem filterTop_multi_error (store : TrigStore) (cands : List Candidate)
    (h : ∃ c ∈ cands, 1 < c.script.length) :
    filterTop store cands = .error multiScriptMessage := by
  induction cands with
  | nil => simp at h
  | cons c rest ih =>
    rcases h with ⟨d, hd, hlen⟩
    rw [filterTop]
    rcases List.mem_cons.mp hd with rfl | hmem
    · simp [hlen]
    · by_cases hc : 1 < c.script.length
      · simp [hc]
      · rw [if_neg hc, ih ⟨d, hmem, hlen⟩]

/-- C5: if any candidate reaching the final universe filter has more
than one qualifying script, the whole build returns the fatal error - no
package list is produced, whatever the packages are. -/
theorem multi_script_aborts (e : Expressions) (store : TrigStore)
    (cands : List Candidate) (packs : List PackageDescriptor)
    (h : ∃ c ∈ cands, 1 < c.script.length) :
    buildAll e store cands packs = .error multiScriptMessage := by
  rw [buildAll, filterTop_multi_error store cands h]

def c5cand : Candidate := ⟨"abc", "Abcish", some 9, some "u1", ["Latin", "Cyrillic"]⟩

/-- Witness for `multi_script_aborts` on a two-script candidate. -/
theorem multi_script_aborts_witness :
    buildAll (fun _ => none) (fun _ => none) [c5cand] [⟨-1, []⟩] =
      .error multiScriptMessage :=
  multi_script_aborts (fun _ => none) (fun _ => none) [c5cand] [⟨-1, []⟩]
    ⟨c5cand, by decide, by decide⟩

/-! ### C9: rejection of script-less, trigram-less candidates and its
warning -/

theorem warnCondb_eq_bigSpeakersb (c : Candidate) : warnCondb c = bigSpeakersb c := by
  rw [warnCondb, bigSpeakersb]
  cases c.speakers with
  | none => rfl
  | some s =>
    by_cases h : 1000000 < s
    · have hne : s ≠ 0 := by omega
      simp [h, hne]
    · simp [h]

/-- C9: when the final universe filter completes without the fatal
error, the kept universe is exactly the candidates that have a script or
trigram data (each collapsed to its head script), and a warning names
exactly the rejected candidates whose speaker count is above one
million. -/
theorem universe_filter_law (store : TrigStore) (cands : List Candidate)
    (out : List LanguageInfo × List String)
    (h : filterTop store cands = .ok out) :
    out.1 = (cands.filter (fun c => !ignoredC store c)).map toInfo ∧
    out.2 = (cands.filter (fun c => ignoredC store c && bigSpeakersb c)).map warnMsg := by
  induction cands generalizing out with
  | nil =>
    rw [filterTop] at h
    cases h
    simp
  | cons c rest ih =>
    rw [filterTop] at h
    by_cases hs : 1 < c.script.length
    · simp [hs] at h
    · rw [if_neg hs] at h
      cases hrec : filterTop store rest with
      | error m => rw [hrec] at h; cases h
      | ok p =>
        rw [hrec] at h
        obtain ⟨h1, h2⟩ := ih p hrec
        cases h
        constructor
        · by_cases hig : ignoredC store c
          · simp [hig, h1, List.filter_cons]
          · simp [hig, h1, List.filter_cons]
        · by_cases hig : ignoredC store c
          · by_cases hb : bigSpeakersb c
            · simp [hig, hb, h2, warnCondb_eq_bigSpeakersb, List.filter_cons]
            · simp [hig, hb, h2, warnCondb_eq_bigSpeakersb, List.filter_cons]
          · simp [hig, h2, warnCondb_eq_bigSpeakersb, List.filter_cons]

def c9big : Candidate := ⟨"big", "Bigish", some 2000000, none, []⟩

def c9keep : Candidate := ⟨"kep", "Keepish", some 3, some "u2", ["Latin"]⟩

/-- Witness for `universe_filter_law`: a 2,000,000-speaker candidate
with no declaration text and no trigrams is dropped with a warning, its
neighbour with a script is kept. -/
theorem universe_filter_law_witness :
    ([toInfo c9keep], [warnMsg c9big]).1 =
      ([c9big, c9keep].filter (fun c => !ignoredC (fun _ => none) c)).map toInfo ∧
    ([toInfo c9keep], [warnMsg c9big]).2 =
      ([c9big, c9keep].filter
        (fun c => ignoredC (fun _ => none) c && bigSpeakersb c)).map warnMsg :=
  universe_filter_law (fun _ => none) [c9big, c9keep] ([toInfo c9keep], [warnMsg c9big])
    (by rfl)

/-! ### C10: a group emptied by the redundancy filter crashes generate -/

theorem processGroups_empty_error (e : Expressions) (G : String → List LanguageInfo)
    (acc : GroupAcc) (keys : List String)
    (h : ∃ k ∈ keys, G k = []) :
    processGroups e G acc keys = .error typeErrorMessage := by
  induction keys generalizing acc with
  | nil => simp at h
  | cons k1 rest ih =>
    rcases h with ⟨k, hk, hempty⟩
    rw [processGroups]
    rcases List.mem_cons.mp hk with rfl | hmem
    · simp [hempty]
    · by_cases hlen : 1 < (G k1).length
      · rw [if_pos hlen]
        exact ih _ ⟨k, hmem, hempty⟩
      · rw [if_neg hlen]
        cases hG : G k1 with
        | nil => simp
        | cons l0 tl => exact ih _ ⟨k, hmem, hempty⟩

/-- C10: for any processed package (non-zero threshold), if some script
group of the resolved list is empty once the redundant codes npi and yue
are removed, the singleton branch dereferences an undefined element and
the run crashes with a TypeError instead of skipping the group. -/
theorem empty_group_crashes (e : Expressions) (top : List LanguageInfo)
    (pack : PackageDescriptor) (store : TrigStore) (S : String)
    (ht : pack.threshold ≠ 0)
    (hS : S ∈ scriptKeys (resolveList pack top))
    (hempty : pruned (groupOf (resolveList pack top) S) = []) :
    (generate e top pack store).1 = some (.error typeErrorMessage) := by
  have hpe := processGroups_empty_error e
    (fun k => pruned (groupOf (resolveList pack top) k)) ⟨[], [], []⟩
    (scriptKeys (resolveList pack top)) ⟨S, hS, hempty⟩
  rw [generate, if_neg ht, hpe]

def c10yue : LanguageInfo := ⟨"yue", "Yue Chinese", some 5, some "u3", some "Han"⟩

/-- Witness for `empty_group_crashes`: a package whose allow-list
selects only yue crashes, since the Han group is emptied by the
redundancy filter. -/
theorem empty_group_crashes_witness :
    (generate (fun s => some s) [c10yue] ⟨-1, ["yue"]⟩ (fun _ => none)).1 =
      some (.error typeErrorMessage) :=
  empty_group_crashes (fun s => some s) [c10yue] ⟨-1, ["yue"]⟩ (fun _ => none) "Han"
    (by decide) (by decide) (by decide)

/-! ### C8: the synthetic Japanese entry -/

/-- C8: whenever generate produces artifacts, the ExpressionTable holds
under the fixed key jpn the alternation of the Hiragana and Katakana
character classes - for every threshold and every allow-list. -/
theorem jpn_always_present (e : Expressions) (top : List LanguageInfo)
    (pack : PackageDescriptor) (store : TrigStore) (A : Artifacts)
    (hira kata : String)
    (hh : e "Hiragana" = some hira) (hk : e "Katakana" = some kata)
    (hA : (generate e top pack store).1 = some (.ok A)) :
    getKey A.regularExpressions "jpn" = some (some (hira ++ "|" ++ kata)) := by
  rw [generate] at hA
  by_cases ht : pack.threshold = 0
  · rw [if_pos ht] at hA; cases hA
  · rw [if_neg ht] at hA
    cases hpg : processGroups e (fun k => pruned (groupOf (resolveList pack top) k)) ⟨[], [], []⟩
        (scriptKeys (resolveList pack top)) with
    | error m => rw [hpg] at hA; simp at hA
    | ok acc =>
      rw [hpg, hh, hk] at hA
      simp only [Prod.fst, Option.some.injEq, Except.ok.injEq] at hA
      rw [← hA]
      exact getKey_objSet_self acc.regs "jpn" (some (hira ++ "|" ++ kata))

def c8a : LanguageInfo := ⟨"aaa", "Aaaish", some 7, none, some "Latin"⟩

/-- Witness for `jpn_always_present` on a one-language universe and a
threshold-(-1) package. -/
theorem jpn_always_present_witness :
    getKey ((match (generate (fun s => some s) [c8a] ⟨-1, []⟩ (fun _ => none)).1 with
             | some (.ok A) => A
             | _ => default) : Artifacts).regularExpressions "jpn" =
      some (some ("Hiragana" ++ "|" ++ "Katakana")) :=
  jpn_always_present (fun s => some s) [c8a] ⟨-1, []⟩ (fun _ => none) _
    "Hiragana" "Katakana" rfl rfl (by rfl)

/-! ### C7: the trigram store is never written; packages are
order-independent -/

theorem trigramGroup_store (store : TrigStore) (sup : List LanguageInfo)
    (obj : List (String × String)) (warns : List String) (langs : List LanguageInfo) :
    (trigramGroup store sup obj warns langs).2 = store := by
  induction langs generalizing sup obj warns with
  | nil => rfl
  | cons i rest ih =>
    rw [trigramGroup]
    split
    · apply ih
    · apply ih

theorem processTrigrams_store (store : TrigStore) (sup : List LanguageInfo)
    (data : List (String × List (String × String))) (warns : List String)
    (groups : List (String × List LanguageInfo)) :
    (processTrigrams store sup data warns groups).2 = store := by
  induction groups generalizing store sup data warns with
  | nil => rfl
  | cons g rest ih =>
    obtain ⟨script, languages⟩ := g
    rw [processTrigrams, ih, trigramGroup_store]

/-- C7: generate returns the shared trigram store unchanged (the
reversal acts on a concat copy), so the artifact a package produces is
the same whether or not another package ran before it. -/
theorem package_independence (e : Expressions) (top : List LanguageInfo)
    (p q : PackageDescriptor) (store : TrigStore) :
    (generate e top p store).2 = store ∧
    (generate e top p ((generate e top q store).2)).1 = (generate e top p store).1 := by
  have frame : ∀ (r : PackageDescriptor) (s : TrigStore), (generate e top r s).2 = s := by
    intro r s
    rw [generate]
    by_cases ht : r.threshold = 0
    · rw [if_pos ht]
    · rw [if_neg ht]
      split
      · rfl
      · split
        · exact processTrigrams_store s _ [] [] _
        · exact processTrigrams_store s _ [] [] _
  exact ⟨frame p store, by rw [frame q store]⟩

/-! ### The string order used by the name tie-break -/

theorem charsLtb_asymm (a b : List Char) (h1 : charsLtb a b = true)
    (h2 : charsLtb b a = true) : False := by
  induction a generalizing b with
  | nil => cases b <;> simp [charsLtb] at h1 h2
  | cons x xs ih =>
    cases b with
    | nil => simp [charsLtb] at h1
    | cons y ys =>
      rw [charsLtb] at h1 h2
      by_cases hxy : x.toNat < y.toNat
      · have : ¬ y.toNat < x.toNat := by omega
        simp [hxy, this] at h2
      · by_cases hyx : y.toNat < x.toNat
        · simp [hxy, hyx] at h1
        · simp [hxy, hyx] at h1 h2
          exact ih ys h1 h2

theorem charsLtb_trans (a b c : List Char) (h1 : charsLtb a b = true)
    (h2 : charsLtb b c = true) : charsLtb a c = true := by
  induction a generalizing b c with
  | nil =>
    cases b with
    | nil => simp [charsLtb] at h1
    | cons y ys => cases c with
      | nil => simp [charsLtb] at h2
      | cons z zs => simp [charsLtb]
  | cons x xs ih =>
    cases b with
    | nil => simp [charsLtb] at h1
    | cons y ys =>
      cases c with
      | nil => simp [charsLtb] at h2
      | cons z zs =>
        rw [charsLtb] at h1 h2 ⊢
        by_cases hxy : x.toNat < y.toNat
        · by_cases hyz : y.toNat < z.toNat
          · have hxz : x.toNat < z.toNat := by omega
            simp [hxz]
          · by_cases hzy : z.toNat < y.toNat
            · simp [hyz, hzy] at h2
            · have hyzeq : y.toNat = z.toNat := by omega
              have hxz : x.toNat < z.toNat := by omega
              simp [hxz]
        · by_cases hyx : y.toNat < x.toNat
          · simp [hxy, hyx] at h1
          · have hxyeq : x.toNat = y.toNat := by omega
            by_cases hyz : y.toNat < z.toNat
            · have hxz : x.toNat < z.toNat := by omega
              simp [hxz]
            · by_cases hzy : z.toNat < y.toNat
              · simp [hyz, hzy] at h2
              · have hxz : ¬ x.toNat < z.toNat := by omega
                have hzx : ¬ z.toNat < x.toNat := by omega
                simp [hxy, hyx] at h1
                simp [hyz, hzy] at h2
                simp [hxz, hzx]
                exact ih ys zs h1 h2

theorem charsLtb_false_trans (a b c : List Char) (h1 : charsLtb b a = false)
    (h2 : charsLtb c b = false) : charsLtb c a = false := by
  induction a generalizing b c with
  | nil =>
    cases c with
    | nil => rfl
    | cons z zs => rfl
  | cons x xs ih =>
    cases b with
    | nil => simp [charsLtb] at h1
    | cons y ys =>
      cases c with
      | nil => simp [charsLtb] at h2
      | cons z zs =>
        rw [charsLtb] at h1 h2 ⊢
        by_cases hyx : y.toNat < x.toNat
        · simp [hyx] at h1
        · by_cases hzy : z.toNat < y.toNat
          · simp [hzy] at h2
          · have hzx : ¬ z.toNat < x.toNat := by omega
            rw [if_neg hzx]
            by_cases hxz : x.toNat < z.toNat
            · simp [hxz]
            · rw [if_neg hxz]
              have hxy : ¬ x.toNat < y.toNat := by omega
              have hyz : ¬ y.toNat < z.toNat := by omega
              rw [if_neg hyx, if_neg hxy] at h1
              rw [if_neg hzy, if_neg hyz] at h2
              exact ih ys zs h1 h2

theorem strLtb_asymm (a b : String) (h1 : strLtb a b = true) (h2 : strLtb b a = true) :
    False :=
  charsLtb_asymm a.data b.data h1 h2

theorem strLtb_false_of (a b : String) (h : strLtb a b = true) : strLtb b a = false := by
  cases hb : strLtb b a with
  | false => rfl
  | true => exact (strLtb_asymm a b h hb).elim

theorem strLe_trans (a b c : String) (h1 : strLtb b a = false) (h2 : strLtb c b = false) :
    strLtb c a = false :=
  charsLtb_false_trans a.data b.data c.data h1 h2

theorem alphaAsc_nonpos_iff (a b : String) : alphaAsc a b ≤ 0 ↔ strLtb b a = false := by
  rw [alphaAsc]
  by_cases h1 : strLtb a b
  · simp [h1, strLtb_false_of a b h1]
  · by_cases h2 : strLtb b a
    · simp [h1, h2]
    · simp [h1, h2]

/-! ### C3: what the sort comparator guarantees -/

theorem sortCmp_known_known (a b : LanguageInfo) (x y : Nat)
    (ha : a.speakers = some x) (hb : b.speakers = some y) :
    (sortCmp a b ≤ 0 ↔ (y < x ∨ (x = y ∧ strLtb b.name a.name = false))) := by
  have hcm : sortCmp a b =
      if (y : Int) - (x : Int) > 0 ∨ (y : Int) - (x : Int) < 0 then (y : Int) - (x : Int)
      else alphaAsc a.name b.name := by
    rw [sortCmp.eq_def, ha, hb]
  rw [hcm]
  by_cases hxy : x = y
  · have hno : ¬ ((y : Int) - (x : Int) > 0 ∨ (y : Int) - (x : Int) < 0) := by omega
    rw [if_neg hno, alphaAsc_nonpos_iff]
    constructor
    · intro h
      exact Or.inr ⟨hxy, h⟩
    · rintro (h | ⟨_, h⟩)
      · omega
      · exact h
  · have hyes : ((y : Int) - (x : Int) > 0 ∨ (y : Int) - (x : Int) < 0) := by omega
    rw [if_pos hyes]
    constructor
    · intro h
      left
      omega
    · rintro (h | ⟨h, _⟩)
      · omega
      · exact absurd h hxy

theorem sortCmp_known_unknown (a b : LanguageInfo) (x : Nat)
    (ha : a.speakers = some x) (hb : b.speakers = none) : sortCmp a b = -1 := by
  rw [sortCmp.eq_def, ha, hb]

theorem sortCmp_unknown_known (a b : LanguageInfo) (y : Nat)
    (ha : a.speakers = none) (hb : b.speakers = some y) :
    sortCmp a b = if y = 0 then -1 else 1 := by
  rw [sortCmp.eq_def, ha, hb]

theorem sortCmp_unknown_unknown (a b : LanguageInfo)
    (ha : a.speakers = none) (hb : b.speakers = none) :
    sortCmp a b = alphaAsc a.name b.name := by
  rw [sortCmp.eq_def, ha, hb]

theorem sortCmp_total (a b : LanguageInfo) : sortCmp a b ≤ 0 ∨ sortCmp b a ≤ 0 := by
  cases ha : a.speakers with
  | none =>
    cases hb : b.speakers with
    | none =>
      rw [sortCmp_unknown_unknown a b ha hb, sortCmp_unknown_unknown b a hb ha,
        alphaAsc_nonpos_iff, alphaAsc_nonpos_iff]
      by_cases h : strLtb b.name a.name
      · exact Or.inr (strLtb_false_of b.name a.name h)
      · exact Or.inl (by simpa using h)
    | some y =>
      right
      rw [sortCmp_known_unknown b a y hb ha]
      omega
  | some x =>
    cases hb : b.speakers with
    | none =>
      left
      rw [sortCmp_known_unknown a b x ha hb]
      omega
    | some y =>
      rcases Nat.lt_trichotomy x y with h | h | h
      · right
        exact (sortCmp_known_known b a y x hb ha).2 (Or.inl h)
      · subst h
        by_cases hn : strLtb b.name a.name
        · right
          exact (sortCmp_known_known b a x x hb ha).2
            (Or.inr ⟨rfl, strLtb_false_of b.name a.name hn⟩)
        · left
          exact (sortCmp_known_known a b x x ha hb).2 (Or.inr ⟨rfl, by simpa using hn⟩)
      · left
        exact (sortCmp_known_known a b x y ha hb).2 (Or.inl h)

theorem sortCmp_trans (a b c : LanguageInfo)
    (hb0 : b.speakers ≠ some 0) (hc0 : c.speakers ≠ some 0)
    (h1 : sortCmp a b ≤ 0) (h2 : sortCmp b c ≤ 0) : sortCmp a c ≤ 0 := by
  cases ha : a.speakers with
  | some x =>
    cases hb : b.speakers with
    | some y =>
      cases hc : c.speakers with
      | none => rw [sortCmp_known_unknown a c x ha hc]; omega
      | some z =>
        rw [sortCmp_known_known a b x y ha hb] at h1
        rw [sortCmp_known_known b c y z hb hc] at h2
        rw [sortCmp_known_known a c x z ha hc]
        rcases h1 with h1 | ⟨h1e, h1n⟩
        · rcases h2 with h2 | ⟨h2e, _⟩
          · exact Or.inl (by omega)
          · exact Or.inl (by omega)
        · rcases h2 with h2 | ⟨h2e, h2n⟩
          · exact Or.inl (by omega)
          · exact Or.inr ⟨by omega, strLe_trans a.name b.name c.name h1n h2n⟩
    | none =>
      cases hc : c.speakers with
      | none => rw [sortCmp_known_unknown a c x ha hc]; omega
      | some z =>
        rw [sortCmp_unknown_known b c z hb hc] at h2
        have hz : z ≠ 0 := fun h => hc0 (h ▸ hc)
        rw [if_neg hz] at h2
        omega
  | none =>
    cases hb : b.speakers with
    | some y =>
      have hy : y ≠ 0 := fun h => hb0 (h ▸ hb)
      rw [sortCmp_unknown_known a b y ha hb, if_neg hy] at h1
      omega
    | none =>
      cases hc : c.speakers with
      | some z =>
        have hz : z ≠ 0 := fun h => hc0 (h ▸ hc)
        rw [sortCmp_unknown_known b c z hb hc, if_neg hz] at h2
        omega
      | none =>
        rw [sortCmp_unknown_unknown a b ha hb, alphaAsc_nonpos_iff] at h1
        rw [sortCmp_unknown_unknown b c hb hc, alphaAsc_nonpos_iff] at h2
        rw [sortCmp_unknown_unknown a c ha hc, alphaAsc_nonpos_iff]
        exact strLe_trans a.name b.name c.name h1 h2

theorem specLEb_of_sortCmp (a b : LanguageInfo) (hb0 : b.speakers ≠ some 0)
    (h : sortCmp a b ≤ 0) : specLEb a b = true := by
  cases ha : a.speakers with
  | some x =>
    cases hb : b.speakers with
    | none => rw [specLEb.eq_def, ha, hb]
    | some y =>
      rw [sortCmp_known_known a b x y ha hb] at h
      rw [specLEb.eq_def, ha, hb]
      rcases h with h | ⟨he, hn⟩
      · simp [h]
      · simp [he, strLeb, hn]
  | none =>
    cases hb : b.speakers with
    | none => rw [specLEb.eq_def, ha, hb]
    | some y =>
      have hy : y ≠ 0 := fun hz => hb0 (hz ▸ hb)
      rw [sortCmp_unknown_known a b y ha hb, if_neg hy] at h
      omega

theorem pairwise_insertCmp {α : Type} (cmp : α → α → Int) (x : α) (l : List α)
    (hl : l.Pairwise (fun a b => cmp a b ≤ 0))
    (htot : ∀ b ∈ l, cmp x b ≤ 0 ∨ cmp b x ≤ 0)
    (htrans : ∀ b ∈ l, ∀ c ∈ l, cmp x b ≤ 0 → cmp b c ≤ 0 → cmp x c ≤ 0) :
    (insertCmp cmp x l).Pairwise (fun a b => cmp a b ≤ 0) := by
  induction l with
  | nil => simp [insertCmp]
  | cons y ys ih =>
    rw [insertCmp]
    by_cases hxy : cmp x y ≤ 0
    · rw [if_pos hxy, List.pairwise_cons]
      refine ⟨?_, hl⟩
      intro w hw
      rcases List.mem_cons.mp hw with rfl | hw'
      · exact hxy
      · have hyw : cmp y w ≤ 0 := (List.pairwise_cons.mp hl).1 w hw'
        exact htrans y (List.mem_cons_self y ys) w (List.mem_cons_of_mem y hw') hxy hyw
    · rw [if_neg hxy, List.pairwise_cons]
      constructor
      · intro w hw
        rcases List.mem_cons.mp ((insertCmp_perm cmp x ys).mem_iff.mp hw) with rfl | hw'
        · rcases htot y (List.mem_cons_self y ys) with h | h
          · exact absurd h hxy
          · exact h
        · exact (List.pairwise_cons.mp hl).1 w hw'
      · refine ih (List.pairwise_cons.mp hl).2 ?_ ?_
        · intro b hb
          exact htot b (List.mem_cons_of_mem y hb)
        · intro b hb c hc hxb hbc
          exact htrans b (List.mem_cons_of_mem y hb) c (List.mem_cons_of_mem y hc) hxb hbc

theorem jsSort_pairwise {α : Type} (cmp : α → α → Int) (l : List α)
    (htot : ∀ a ∈ l, ∀ b ∈ l, cmp a b ≤ 0 ∨ cmp b a ≤ 0)
    (htrans : ∀ a ∈ l, ∀ b ∈ l, ∀ c ∈ l, cmp a b ≤ 0 → cmp b c ≤ 0 → cmp a c ≤ 0) :
    (jsSort cmp l).Pairwise (fun a b => cmp a b ≤ 0) := by
  induction l with
  | nil => simp [jsSort]
  | cons x xs ih =>
    rw [jsSort]
    refine pairwise_insertCmp cmp x (jsSort cmp xs) ?_ ?_ ?_
    · refine ih ?_ ?_
      · intro a ha b hb
        exact htot a (List.mem_cons_of_mem x ha) b (List.mem_cons_of_mem x hb)
      · intro a ha b hb c hc
        exact htrans a (List.mem_cons_of_mem x ha) b (List.mem_cons_of_mem x hb)
          c (List.mem_cons_of_mem x hc)
    · intro b hb
      exact htot x (List.mem_cons_self x xs) b
        (List.mem_cons_of_mem x (mem_jsSort.mp hb))
    · intro b hb c hc hxb hbc
      exact htrans x (List.mem_cons_self x xs) b
        (List.mem_cons_of_mem x (mem_jsSort.mp hb)) c
        (List.mem_cons_of_mem x (mem_jsSort.mp hc)) hxb hbc

def c3u : LanguageInfo := ⟨"unk", "Unknownish", none, none, some "Latin"⟩

def c3z : LanguageInfo := ⟨"zer", "Zeroish", some 0, none, some "Latin"⟩

/-- C3 (counterexample): sorting a list that holds an unknown-count
language and a zero-speaker language leaves the unknown one first - the
comparator answers -1 for the pair in both argument orders, so the
sorted output violates the claimed placement of unknown counts after
all known counts including zero. -/
theorem sort_claim_cex :
    jsSort sortCmp [c3u, c3z] = [c3u, c3z] ∧
    ¬ (jsSort sortCmp [c3u, c3z]).Pairwise (fun a b => specLEb a b = true) :=
  ⟨by decide, by decide⟩

/-- C3 (amended): on any list in which every known speaker count is
non-zero, the sorted output is ordered by descending speaker count, with
ties on equal counts broken by ascending name, and every unknown-count
language after all known-count languages; with a zero-speaker language
present the comparator is inconsistent against unknown counts and the
guarantee fails. -/
theorem sort_spec_amended (l : List LanguageInfo)
    (h0 : ∀ i ∈ l, i.speakers ≠ some 0) :
    (jsSort sortCmp l).Pairwise (fun a b => specLEb a b = true) := by
  have hp := jsSort_pairwise sortCmp l (fun a _ b _ => sortCmp_total a b)
    (fun a _ b hb c hc h1 h2 => sortCmp_trans a b c (h0 b hb) (h0 c hc) h1 h2)
  refine List.Pairwise.imp_of_mem ?_ hp
  intro a b _ hb h
  exact specLEb_of_sortCmp a b (h0 b (mem_jsSort.mp hb)) h

def c3a : LanguageInfo := ⟨"aaa", "Aaaish", some 5, none, some "Latin"⟩

def c3b : LanguageInfo := ⟨"bbb", "Beeish", some 5, none, some "Latin"⟩

def c3c : LanguageInfo := ⟨"ccc", "Ceeish", none, none, some "Latin"⟩

/-- Witness for `sort_spec_amended` on a list with a speaker tie and an
unknown count. -/
theorem sort_spec_amended_witness :
    (jsSort sortCmp [c3c, c3b, c3a]).Pairwise (fun a b => specLEb a b = true) :=
  sort_spec_amended [c3c, c3b, c3a] (by decide)

/-! ### Characterization of the first group loop -/

theorem processGroups_support (e : Expressions) (G : String → List LanguageInfo)
    (keys : List String) (acc : GroupAcc) (out : GroupAcc)
    (h : processGroups e G acc keys = .ok out) :
    out.support = acc.support ++ sgList G keys := by
  induction keys generalizing acc with
  | nil =>
    rw [processGroups] at h
    cases h
    simp [sgList]
  | cons k1 rest ih =>
    rw [processGroups] at h
    by_cases hlen : 1 < (G k1).length
    · rw [if_pos hlen] at h
      rw [ih _ h]
      simp [sgList, List.filterMap_cons, hlen]
    · rw [if_neg hlen] at h
      cases hG : G k1 with
      | nil => rw [hG] at h; cases h
      | cons l0 tl =>
        have htl : tl = [] := by
          cases tl with
          | nil => rfl
          | cons a b =>
            exfalso
            apply hlen
            rw [hG]
            simp only [List.length_cons]
            omega
        subst htl
        rw [hG] at h
        rw [ih _ h]
        simp [sgList, List.filterMap_cons, hG]

theorem processGroups_perScript (e : Expressions) (G : String → List LanguageInfo)
    (keys : List String) (acc : GroupAcc) (out : GroupAcc)
    (h : processGroups e G acc keys = .ok out) :
    out.perScript = acc.perScript ++ multiPairs G keys := by
  induction keys generalizing acc with
  | nil =>
    rw [processGroups] at h
    cases h
    simp [multiPairs]
  | cons k1 rest ih =>
    rw [processGroups] at h
    by_cases hlen : 1 < (G k1).length
    · rw [if_pos hlen] at h
      rw [ih _ h]
      simp [multiPairs, List.filterMap_cons, hlen]
    · rw [if_neg hlen] at h
      cases hG : G k1 with
      | nil => rw [hG] at h; cases h
      | cons l0 tl =>
        rw [hG] at h
        rw [ih _ h]
        simp [multiPairs, List.filterMap_cons, hlen]

/-- The keys of the multi-language groups, in key order. -/
def multiKeys (G : String → List LanguageInfo) (keys : List String) : List String :=
  keys.filter (fun k => decide (1 < (G k).length))

theorem processGroups_regs (e : Expressions) (G : String → List LanguageInfo)
    (keys : List String) (acc : GroupAcc) (out : GroupAcc)
    (h : processGroups e G acc keys = .ok out) (x : String) :
    ((getKey out.regs x).isSome = true ↔
      (getKey acc.regs x).isSome = true ∨
      x ∈ (sgList G keys).map (fun i => i.iso6393) ∨
      x ∈ multiKeys G keys) := by
  induction keys generalizing acc with
  | nil =>
    rw [processGroups] at h
    cases h
    simp [sgList, multiKeys]
  | cons k1 rest ih =>
    rw [processGroups] at h
    by_cases hlen : 1 < (G k1).length
    · rw [if_pos hlen] at h
      rw [ih _ h]
      have hpres : (getKey (if jsFalsyVal (getKey acc.regs k1) then
            objSet acc.regs k1 (e k1) else acc.regs) x).isSome = true ↔
          (x = k1 ∨ (getKey acc.regs x).isSome = true) := by
        by_cases hf : jsFalsyVal (getKey acc.regs k1)
        · rw [if_pos hf]
          exact getKey_objSet_isSome acc.regs k1 x (e k1)
        · rw [if_neg hf]
          constructor
          · intro hh
            exact Or.inr hh
          · rintro (rfl | hh)
            · cases hg : getKey acc.regs x with
              | none => rw [jsFalsyVal.eq_def, hg] at hf; exact absurd rfl hf
              | some v => rfl
            · exact hh
      rw [hpres]
      have hsg : sgList G (k1 :: rest) = sgList G rest := by
        simp [sgList, List.filterMap_cons, hlen]
      have hmk : multiKeys G (k1 :: rest) = k1 :: multiKeys G rest := by
        simp [multiKeys, List.filter_cons, hlen]
      rw [hsg, hmk]
      simp only [List.mem_cons]
      tauto
    · rw [if_neg hlen] at h
      cases hG : G k1 with
      | nil => rw [hG] at h; cases h
      | cons l0 tl =>
        have htl : tl = [] := by
          cases tl with
          | nil => rfl
          | cons a b =>
            exfalso
            apply hlen
            rw [hG]
            simp only [List.length_cons]
            omega
        subst htl
        rw [hG] at h
        rw [ih _ h, getKey_objSet_isSome]
        have hsg : sgList G (k1 :: rest) = l0 :: sgList G rest := by
          simp [sgList, List.filterMap_cons, hG]
        have hmk : multiKeys G (k1 :: rest) = multiKeys G rest := by
          simp [multiKeys, List.filter_cons, hlen]
        rw [hsg, hmk]
        simp only [List.map_cons, List.mem_cons]
        tauto

/-! ### Characterization of the trigram loop -/

theorem trigramGroup_support (store : TrigStore) (sup : List LanguageInfo)
    (obj : List (String × String)) (warns : List String) (langs : List LanguageInfo) :
    (trigramGroup store sup obj warns langs).1.1 = sup ++ groupKept store langs := by
  induction langs generalizing sup obj warns with
  | nil => simp [trigramGroup, groupKept]
  | cons i rest ih =>
    rw [trigramGroup]
    cases ht : trigLookup store i.udhr with
    | some arr =>
      simp only [ht]
      rw [ih]
      simp [groupKept, List.filter_cons, ht]
    | none =>
      simp only [ht]
      rw [ih]
      simp [groupKept, List.filter_cons, ht]

theorem trigramGroup_obj (store : TrigStore) (sup : List LanguageInfo)
    (obj : List (String × String)) (warns : List String) (langs : List LanguageInfo) :
    (trigramGroup store sup obj warns langs).1.2.1 = groupObjFrom store obj langs := by
  induction langs generalizing sup obj warns with
  | nil => simp [trigramGroup, groupObjFrom]
  | cons i rest ih =>
    rw [trigramGroup, groupObjFrom]
    cases ht : trigLookup store i.udhr with
    | some arr =>
      simp only [ht]
      exact ih _ _ _
    | none =>
      simp only [ht]
      exact ih _ _ _

theorem processTrigrams_support (store : TrigStore) (sup : List LanguageInfo)
    (data : List (String × List (String × String))) (warns : List String)
    (groups : List (String × List LanguageInfo)) :
    (processTrigrams store sup data warns groups).1.support =
      sup ++ trigSupport store groups := by
  induction groups generalizing store sup data warns with
  | nil => simp [processTrigrams, trigSupport]
  | cons g rest ih =>
    obtain ⟨script, languages⟩ := g
    rw [processTrigrams, ih, trigramGroup_support, trigramGroup_store, trigSupport]
    simp [List.append_assoc]

theorem processTrigrams_data (store : TrigStore) (sup : List LanguageInfo)
    (data : List (String × List (String × String))) (warns : List String)
    (groups : List (String × List LanguageInfo)) :
    (processTrigrams store sup data warns groups).1.data =
      data ++ groups.map (fun p => (p.1, groupObjFrom store [] p.2)) := by
  induction groups generalizing store sup data warns with
  | nil => simp [processTrigrams]
  | cons g rest ih =>
    obtain ⟨script, languages⟩ := g
    rw [processTrigrams, ih, trigramGroup_obj, trigramGroup_store]
    simp [List.append_assoc]

theorem getKey_groupObjFrom_absent (store : TrigStore) (obj : List (String × String))
    (langs : List LanguageInfo) (x : String)
    (hx : ∀ j ∈ langs, j.iso6393 ≠ x) :
    getKey (groupObjFrom store obj langs) x = getKey obj x := by
  induction langs generalizing obj with
  | nil => rfl
  | cons i rest ih =>
    rw [groupObjFrom]
    cases ht : trigLookup store i.udhr with
    | some arr =>
      simp only [ht]
      rw [ih _ (fun j hj => hx j (List.mem_cons_of_mem i hj)),
        getKey_objSet_ne _ _ _ _ (fun hc => hx i (List.mem_cons_self i rest) hc.symm)]
    | none =>
      simp only [ht]
      exact ih _ (fun j hj => hx j (List.mem_cons_of_mem i hj))

theorem getKey_groupObjFrom_isSome (store : TrigStore) (obj : List (String × String))
    (langs : List LanguageInfo) (x : String) :
    ((getKey (groupObjFrom store obj langs) x).isSome = true ↔
      (getKey obj x).isSome = true ∨
      ∃ i ∈ langs, i.iso6393 = x ∧ (trigLookup store i.udhr).isSome = true) := by
  induction langs generalizing obj with
  | nil => simp [groupObjFrom]
  | cons i rest ih =>
    rw [groupObjFrom]
    cases ht : trigLookup store i.udhr with
    | some arr =>
      simp only [ht]
      rw [ih, getKey_objSet_isSome]
      simp only [List.mem_cons, ht, Option.isSome_some]
      constructor
      · rintro ((rfl | hobj) | ⟨j, hj, hx, hs⟩)
        · exact Or.inr ⟨i, Or.inl rfl, rfl, by rw [ht]; rfl⟩
        · exact Or.inl hobj
        · exact Or.inr ⟨j, Or.inr hj, hx, hs⟩
      · rintro (hobj | ⟨j, (rfl | hj), hx, hs⟩)
        · exact Or.inl (Or.inr hobj)
        · exact Or.inl (Or.inl hx.symm)
        · exact Or.inr ⟨j, hj, hx, hs⟩
    | none =>
      simp only [ht]
      rw [ih]
      simp only [List.mem_cons]
      constructor
      · rintro (hobj | ⟨j, hj, hx, hs⟩)
        · exact Or.inl hobj
        · exact Or.inr ⟨j, Or.inr hj, hx, hs⟩
      · rintro (hobj | ⟨j, (rfl | hj), hx, hs⟩)
        · exact Or.inl hobj
        · rw [ht] at hs; cases hs
        · exact Or.inr ⟨j, hj, hx, hs⟩

theorem getKey_groupObjFrom_value (store : TrigStore) (obj : List (String × String))
    (langs : List LanguageInfo) (i : LanguageInfo) (arr : List String)
    (hi : i ∈ langs) (ht : trigLookup store i.udhr = some arr)
    (huniq : ∀ j ∈ langs, j.iso6393 = i.iso6393 → j = i) :
    getKey (groupObjFrom store obj langs) i.iso6393 =
      some (String.intercalate "|" ((arr ++ []).reverse)) := by
  induction langs generalizing obj with
  | nil => cases hi
  | cons j rest ih =>
    rw [groupObjFrom]
    rcases List.mem_cons.mp hi with rfl | hmem
    · rw [ht]
      by_cases hirest : i ∈ rest
      · exact ih _ hirest (fun j2 hj2 hje => huniq j2 (List.mem_cons_of_mem i hj2) hje)
      · have habs : ∀ j2 ∈ rest, j2.iso6393 ≠ i.iso6393 := by
          intro j2 hj2 hje
          exact hirest ((huniq j2 (List.mem_cons_of_mem i hj2) hje) ▸ hj2)
        rw [getKey_groupObjFrom_absent store _ rest i.iso6393 habs, getKey_objSet_self]
    · cases ht2 : trigLookup store j.udhr with
      | some arr2 =>
        simp only [ht2]
        exact ih _ hmem (fun j2 hj2 hje => huniq j2 (List.mem_cons_of_mem j hj2) hje)
      | none =>
        simp only [ht2]
        exact ih _ hmem (fun j2 hj2 hje => huniq j2 (List.mem_cons_of_mem j hj2) hje)

theorem mem_trigSupport (store : TrigStore) (pairs : List (String × List LanguageInfo))
    (i : LanguageInfo) :
    (i ∈ trigSupport store pairs ↔ ∃ p ∈ pairs, i ∈ groupKept store p.2) := by
  induction pairs with
  | nil => simp [trigSupport]
  | cons p rest ih =>
    obtain ⟨k, g⟩ := p
    rw [trigSupport, List.mem_append, ih]
    simp only [List.mem_cons]
    constructor
    · rintro (hg | ⟨q, hq, hmem⟩)
      · exact ⟨(k, g), Or.inl rfl, hg⟩
      · exact ⟨q, Or.inr hq, hmem⟩
    · rintro ⟨q, (rfl | hq), hmem⟩
      · exact Or.inl hmem
      · exact Or.inr ⟨q, hq, hmem⟩

/-! ### Assorted lookup lemmas -/

theorem getKey_of_mem_nodup {α : Type} (l : List (String × α)) (k : String) (v : α)
    (hmem : (k, v) ∈ l) (hnd : (l.map Prod.fst).Nodup) : getKey l k = some v := by
  induction l with
  | nil => cases hmem
  | cons p rest ih =>
    obtain ⟨k0, v0⟩ := p
    rw [List.map_cons, List.nodup_cons] at hnd
    rcases List.mem_cons.mp hmem with heq | hmem'
    · cases heq
      simp [getKey]
    · rw [getKey]
      by_cases hk : k0 = k
      · subst hk
        exact absurd (List.mem_map.mpr ⟨(k0, v), hmem', rfl⟩) hnd.1
      · rw [if_neg hk]
        exact ih hmem' hnd.2

theorem map_fst_multiPairs (G : String → List LanguageInfo) (keys : List String) :
    (multiPairs G keys).map Prod.fst = multiKeys G keys := by
  induction keys with
  | nil => rfl
  | cons k rest ih =>
    rw [multiPairs, multiKeys] at ih ⊢
    rw [List.filterMap_cons, List.filter_cons]
    by_cases hlen : 1 < (G k).length
    · simp [hlen, ih]
    · simp [hlen, ih]

theorem filterMap_key_single {α : Type} (l : List (String × α)) (S : String)
    (f : String × α → Option String)
    (hnd : (l.map Prod.fst).Nodup)
    (hf : ∀ p ∈ l, f p = if p.1 = S then some S else none)
    (hS : ∃ v, (S, v) ∈ l) :
    l.filterMap f = [S] := by
  induction l with
  | nil => rcases hS with ⟨v, hv⟩; cases hv
  | cons p rest ih =>
    obtain ⟨k0, v0⟩ := p
    rw [List.map_cons, List.nodup_cons] at hnd
    rw [List.filterMap_cons]
    by_cases hk : k0 = S
    · subst hk
      have hrest : rest.filterMap f = [] := by
        rw [List.filterMap_eq_nil_iff]
        intro q hq
        rw [hf q (List.mem_cons_of_mem _ hq)]
        have hne : q.1 ≠ k0 := by
          intro hc
          exact hnd.1 (List.mem_map.mpr ⟨q, hq, hc⟩)
        rw [if_neg hne]
      rw [hf (k0, v0) (List.mem_cons_self _ _), hrest]
      simp
    · rw [hf (k0, v0) (List.mem_cons_self _ _)]
      simp only [if_neg hk]
      refine ih hnd.2 (fun q hq => hf q (List.mem_cons_of_mem _ hq)) ?_
      rcases hS with ⟨v, hv⟩
      rcases List.mem_cons.mp hv with heq | hv'
      · cases heq
        exact absurd rfl hk
      · exact ⟨v, hv'⟩

theorem mem_of_head?_some {α : Type} {l : List α} {a : α} (h : l.head? = some a) :
    a ∈ l := by
  cases l with
  | nil => cases h
  | cons x xs =>
    simp only [List.head?, Option.some.injEq] at h
    rw [← h]
    exact List.mem_cons_self x xs

theorem mem_sgList (G : String → List LanguageInfo) (keys : List String)
    (i : LanguageInfo) (h : i ∈ sgList G keys) :
    ∃ k ∈ keys, ¬ 1 < (G k).length ∧ i ∈ G k := by
  rcases List.mem_filterMap.mp h with ⟨k, hk, hfk⟩
  by_cases hlen : 1 < (G k).length
  · rw [if_pos hlen] at hfk; cases hfk
  · rw [if_neg hlen] at hfk
    exact ⟨k, hk, hlen, mem_of_head?_some hfk⟩

theorem mem_pruned_groupOf (list : List LanguageInfo) (k : String) (i : LanguageInfo)
    (h : i ∈ pruned (groupOf list k)) : i ∈ list ∧ keyStr i.script = k := by
  rcases List.mem_filter.mp h with ⟨hg, _⟩
  rcases List.mem_filter.mp hg with ⟨hl, hks⟩
  exact ⟨hl, of_decide_eq_true hks⟩

/-! ### Decomposition of a successful generate run -/

theorem generate_ok_shape (e : Expressions) (top : List LanguageInfo)
    (pack : PackageDescriptor) (store : TrigStore) (A : Artifacts)
    (hA : (generate e top pack store).1 = some (.ok A)) :
    ∃ acc hira kata,
      processGroups e (fun k => pruned (groupOf (resolveList pack top) k)) ⟨[], [], []⟩
        (scriptKeys (resolveList pack top)) = .ok acc ∧
      e "Hiragana" = some hira ∧ e "Katakana" = some kata ∧
      A = ⟨jsSort sortCmp (processTrigrams store acc.support [] [] acc.perScript).1.support,
           objSet acc.regs "jpn" (some (hira ++ "|" ++ kata)),
           (processTrigrams store acc.support [] [] acc.perScript).1.data,
           (processTrigrams store acc.support [] [] acc.perScript).1.warnings⟩ := by
  rw [generate] at hA
  by_cases ht : pack.threshold = 0
  · rw [if_pos ht] at hA
    cases hA
  · rw [if_neg ht] at hA
    cases hpg : processGroups e (fun k => pruned (groupOf (resolveList pack top) k)) ⟨[], [], []⟩
        (scriptKeys (resolveList pack top)) with
    | error m => rw [hpg] at hA; simp at hA
    | ok acc =>
      rw [hpg] at hA
      cases hH : e "Hiragana" with
      | none => rw [hH] at hA; simp at hA
      | some hira =>
        cases hK : e "Katakana" with
        | none => rw [hH, hK] at hA; simp at hA
        | some kata =>
          rw [hH, hK] at hA
          simp only [Option.some.injEq, Except.ok.injEq] at hA
          exact ⟨acc, hira, kata, rfl, rfl, rfl, hA.symm⟩

/-! ### Counting TrigramTable entries per code -/

theorem trigram_filter_empty (list : List LanguageInfo) (store : TrigStore)
    (code : String) (k0 : String)
    (hdup : ∀ i ∈ list, ∀ j ∈ list, i.iso6393 = j.iso6393 → keyStr i.script = keyStr j.script)
    (hk0 : ¬ 1 < (pruned (groupOf list k0)).length)
    (hcode : ∃ i0 ∈ pruned (groupOf list k0), i0.iso6393 = code) :
    (multiPairs (fun k => pruned (groupOf list k)) (scriptKeys list)).filterMap
      (fun p => if (getKey (groupObjFrom store [] p.2) code).isSome then some p.1 else none)
      = [] := by
  rw [List.filterMap_eq_nil_iff]
  intro p hp
  rcases List.mem_filterMap.mp hp with ⟨k, _, hfk⟩
  by_cases hm : 1 < (pruned (groupOf list k)).length
  · rw [if_pos hm] at hfk
    cases hfk
    have hnot : ¬ (getKey (groupObjFrom store [] (pruned (groupOf list k))) code).isSome = true := by
      intro hsome
      rcases (getKey_groupObjFrom_isSome store [] _ code).mp hsome with hobj | ⟨j, hj, hjc, _⟩
      · simp [getKey] at hobj
      · obtain ⟨hjl, hjs⟩ := mem_pruned_groupOf list k j hj
        rcases hcode with ⟨i0, hi0, hi0c⟩
        obtain ⟨hil, his⟩ := mem_pruned_groupOf list k0 i0 hi0
        have heq := hdup j hjl i0 hil (by rw [hjc, hi0c])
        rw [hjs, his] at heq
        exact hk0 (heq ▸ hm)
    rw [if_neg hnot]
  · rw [if_neg hm] at hfk
    cases hfk

theorem trigram_filter_single (list : List LanguageInfo) (store : TrigStore)
    (code : String) (S : String)
    (hdup : ∀ i ∈ list, ∀ j ∈ list, i.iso6393 = j.iso6393 → keyStr i.script = keyStr j.script)
    (hS : S ∈ scriptKeys list)
    (hmulti : 1 < (pruned (groupOf list S)).length)
    (hin : ∃ j ∈ pruned (groupOf list S),
      j.iso6393 = code ∧ (trigLookup store j.udhr).isSome = true) :
    (multiPairs (fun k => pruned (groupOf list k)) (scriptKeys list)).filterMap
      (fun p => if (getKey (groupObjFrom store [] p.2) code).isSome then some p.1 else none)
      = [S] := by
  apply filterMap_key_single
  · rw [map_fst_multiPairs]
    exact List.Nodup.filter _ (nodup_firstKeys _)
  · intro p hp
    rcases List.mem_filterMap.mp hp with ⟨k, _, hfk⟩
    by_cases hm : 1 < (pruned (groupOf list k)).length
    · rw [if_pos hm] at hfk
      cases hfk
      by_cases hkS : k = S
      · subst hkS
        have hsome : (getKey (groupObjFrom store [] (pruned (groupOf list k))) code).isSome
            = true := by
          rcases hin with ⟨j, hj, hjc, hjt⟩
          exact (getKey_groupObjFrom_isSome store [] _ code).mpr (Or.inr ⟨j, hj, hjc, hjt⟩)
        rw [if_pos hsome]
        simp
      · have hnot : ¬ (getKey (groupObjFrom store [] (pruned (groupOf list k))) code).isSome
            = true := by
          intro hsome
          rcases (getKey_groupObjFrom_isSome store [] _ code).mp hsome with hobj | ⟨j, hj, hjc, _⟩
          · simp [getKey] at hobj
          · rcases hin with ⟨j0, hj0, hj0c, _⟩
            have h1 := mem_pruned_groupOf list k j hj
            have h2 := mem_pruned_groupOf list S j0 hj0
            have heq := hdup j h1.1 j0 h2.1 (by rw [hjc, hj0c])
            rw [h1.2, h2.2] at heq
            exact hkS heq
        rw [if_neg hnot, if_neg hkS]
    · rw [if_neg hm] at hfk
      cases hfk
  · exact ⟨pruned (groupOf list S), List.mem_filterMap.mpr ⟨S, hS, by rw [if_pos hmulti]⟩⟩

/-! ### C6: the TrigramTable entry of a multi-language group member -/

/-- C6: for every multi-language script group member with trigram data
(and a code unique in its group), the TrigramTable entry under
script -> code is the member's precomputed trigram list reversed to
least-frequent-first order and joined with the bar character. -/
theorem trigram_entry (e : Expressions) (top : List LanguageInfo)
    (pack : PackageDescriptor) (store : TrigStore) (A : Artifacts)
    (S : String) (i : LanguageInfo) (arr : List String)
    (hA : (generate e top pack store).1 = some (.ok A))
    (hS : S ∈ scriptKeys (resolveList pack top))
    (hmulti : 1 < (pruned (groupOf (resolveList pack top) S)).length)
    (hi : i ∈ pruned (groupOf (resolveList pack top) S))
    (htr : trigLookup store i.udhr = some arr)
    (huniq : ∀ j ∈ pruned (groupOf (resolveList pack top) S),
      j.iso6393 = i.iso6393 → j = i) :
    (getKey A.data S).bind (fun obj => getKey obj i.iso6393) =
      some (String.intercalate "|" arr.reverse) := by
  obtain ⟨acc, hira, kata, hpg, hH, hK, hAeq⟩ := generate_ok_shape e top pack store A hA
  have hper := processGroups_perScript e _ _ _ _ hpg
  subst hAeq
  have hdata : (processTrigrams store acc.support [] [] acc.perScript).1.data =
      (multiPairs (fun k => pruned (groupOf (resolveList pack top) k))
        (scriptKeys (resolveList pack top))).map
        (fun p => (p.1, groupObjFrom store [] p.2)) := by
    rw [processTrigrams_data, hper]
    simp
  dsimp only
  rw [hdata]
  have hmemdata : (S, groupObjFrom store [] (pruned (groupOf (resolveList pack top) S))) ∈
      (multiPairs (fun k => pruned (groupOf (resolveList pack top) k))
        (scriptKeys (resolveList pack top))).map
        (fun p => (p.1, groupObjFrom store [] p.2)) :=
    List.mem_map.mpr ⟨(S, pruned (groupOf (resolveList pack top) S)),
      List.mem_filterMap.mpr ⟨S, hS, by rw [if_pos hmulti]⟩, rfl⟩
  have hnd : (((multiPairs (fun k => pruned (groupOf (resolveList pack top) k))
      (scriptKeys (resolveList pack top))).map
        (fun p => (p.1, groupObjFrom store [] p.2))).map Prod.fst).Nodup := by
    rw [List.map_map]
    have hcomp : (Prod.fst ∘ fun p : String × List LanguageInfo =>
        (p.1, groupObjFrom store [] p.2)) = Prod.fst := rfl
    rw [hcomp, map_fst_multiPairs]
    exact List.Nodup.filter _ (nodup_firstKeys _)
  rw [getKey_of_mem_nodup _ _ _ hmemdata hnd]
  have hbind : (some (groupObjFrom store [] (pruned (groupOf (resolveList pack top) S)))).bind
      (fun obj => getKey obj i.iso6393) =
      getKey (groupObjFrom store [] (pruned (groupOf (resolveList pack top) S))) i.iso6393 :=
    rfl
  rw [hbind, getKey_groupObjFrom_value store [] _ i arr hi htr huniq, List.append_nil]

def c6E : Expressions := fun s => some s

def c6x : LanguageInfo := ⟨"xxx", "Exish", some 3, some "k2", some "S2"⟩

def c6y : LanguageInfo := ⟨"yyy", "Whyish", some 1, some "k3", some "S2"⟩

def c6Store : TrigStore := fun k =>
  if k = "k2" then some ["aa", "bb"] else if k = "k3" then some ["cc"] else none

def c6A : Artifacts :=
  match (generate c6E [c6x, c6y] ⟨-1, []⟩ c6Store).1 with
  | some (.ok A) => A
  | _ => default

/-- Witness for `trigram_entry`: in a two-member S2 group the entry for
xxx is its trigram list reversed and joined with a bar. -/
theorem trigram_entry_witness :
    (getKey c6A.data "S2").bind (fun obj => getKey obj c6x.iso6393) =
      some (String.intercalate "|" ["aa", "bb"].reverse) :=
  trigram_entry c6E [c6x, c6y] ⟨-1, []⟩ c6Store c6A "S2" c6x ["aa", "bb"]
    (by rfl) (by decide) (by decide) (by decide) (by decide) (by decide)

/-! ### C1: the coverage law -/

def c1E : Expressions := fun s => some s

def c1x1 : LanguageInfo := ⟨"x", "Xone", some 3, some "k1", some "S1"⟩

def c1x2 : LanguageInfo := ⟨"x", "Xtwo", some 2, some "k2", some "S2"⟩

def c1y : LanguageInfo := ⟨"y", "Yish", some 1, some "k3", some "S2"⟩

def c1Store : TrigStore := fun k =>
  if k = "k2" then some ["ab"] else if k = "k3" then some ["cd"] else none

def c1A : Artifacts :=
  match (generate c1E [c1x1, c1x2, c1y] ⟨-1, []⟩ c1Store).1 with
  | some (.ok A) => A
  | _ => default

/-- C1 (counterexample): a code with two records in different scripts (a
language with two declaration variants) lands in the support list with
both mechanisms at once - an own ExpressionTable key from its singleton
S1 group and a TrigramTable entry under S2 - so the coverage law as
stated fails. -/
theorem coverage_claim_cex :
    (generate c1E [c1x1, c1x2, c1y] ⟨-1, []⟩ c1Store).1 = some (.ok c1A) ∧
    coverageOK c1A = false :=
  ⟨by rfl, by decide⟩

/-- C1 (amended): for every package whose resolved list gives each code a
single script, whose codes collide with no script-group key, and whose
multi-language groups hold no code jpn, every code in the final support
list resolves to exactly one mechanism: an own ExpressionTable key with
no TrigramTable entry, or a TrigramTable entry under exactly one script
and no own key - never both, never neither. -/
theorem coverage_law_amended (e : Expressions) (top : List LanguageInfo)
    (pack : PackageDescriptor) (store : TrigStore) (A : Artifacts)
    (hdup : ∀ i ∈ resolveList pack top, ∀ j ∈ resolveList pack top,
      i.iso6393 = j.iso6393 → keyStr i.script = keyStr j.script)
    (hkeys : ∀ i ∈ resolveList pack top, i.iso6393 ∉ scriptKeys (resolveList pack top))
    (hjpn : ∀ i ∈ resolveList pack top,
      1 < (pruned (groupOf (resolveList pack top) (keyStr i.script))).length →
      i.iso6393 ≠ "jpn")
    (hA : (generate e top pack store).1 = some (.ok A)) :
    coverageOK A = true := by
  obtain ⟨acc, hira, kata, hpg, hH, hK, hAeq⟩ := generate_ok_shape e top pack store A hA
  have hsup := processGroups_support e _ _ _ _ hpg
  have hper := processGroups_perScript e _ _ _ _ hpg
  have hregs := processGroups_regs e _ _ _ _ hpg
  subst hAeq
  have hdata : (processTrigrams store acc.support [] [] acc.perScript).1.data =
      (multiPairs (fun k => pruned (groupOf (resolveList pack top) k))
        (scriptKeys (resolveList pack top))).map
        (fun p => (p.1, groupObjFrom store [] p.2)) := by
    rw [processTrigrams_data, hper]
    simp
  have hTS : ∀ code : String,
      trigramScripts ⟨jsSort sortCmp
          (processTrigrams store acc.support [] [] acc.perScript).1.support,
          objSet acc.regs "jpn" (some (hira ++ "|" ++ kata)),
          (processTrigrams store acc.support [] [] acc.perScript).1.data,
          (processTrigrams store acc.support [] [] acc.perScript).1.warnings⟩ code =
        (multiPairs (fun k => pruned (groupOf (resolveList pack top) k))
          (scriptKeys (resolveList pack top))).filterMap
          (fun p => if (getKey (groupObjFrom store [] p.2) code).isSome
                    then some p.1 else none) := by
    intro code
    simp only [trigramScripts]
    rw [hdata, List.filterMap_map]
    rfl
  have hOK : ∀ code : String,
      ownKey ⟨jsSort sortCmp
          (processTrigrams store acc.support [] [] acc.perScript).1.support,
          objSet acc.regs "jpn" (some (hira ++ "|" ++ kata)),
          (processTrigrams store acc.support [] [] acc.perScript).1.data,
          (processTrigrams store acc.support [] [] acc.perScript).1.warnings⟩ code =
        (getKey (objSet acc.regs "jpn" (some (hira ++ "|" ++ kata))) code).isSome := by
    intro code
    rfl
  simp only [coverageOK, List.all_eq_true]
  intro i hi
  rw [mem_jsSort, processTrigrams_support, hsup, hper] at hi
  simp only [List.nil_append] at hi
  rcases List.mem_append.mp hi with hi1 | hi2
  · -- singleton-group member: own key, no trigram entries
    obtain ⟨k0, hk0mem, hk0notmulti, hiG⟩ := mem_sgList _ _ i hi1
    obtain ⟨hilist, hiscript⟩ := mem_pruned_groupOf _ k0 i hiG
    have hts0 : (multiPairs (fun k => pruned (groupOf (resolveList pack top) k))
        (scriptKeys (resolveList pack top))).filterMap
        (fun p => if (getKey (groupObjFrom store [] p.2) i.iso6393).isSome
                  then some p.1 else none) = [] :=
      trigram_filter_empty _ store i.iso6393 k0 hdup hk0notmulti ⟨i, hiG, rfl⟩
    have hok : (getKey (objSet acc.regs "jpn" (some (hira ++ "|" ++ kata)))
        i.iso6393).isSome = true := by
      by_cases hjp : i.iso6393 = "jpn"
      · rw [hjp, getKey_objSet_self]
        rfl
      · rw [getKey_objSet_ne _ _ _ _ hjp]
        rw [hregs i.iso6393]
        refine Or.inr (Or.inl ?_)
        exact List.mem_map.mpr ⟨i, hi1, rfl⟩
    rw [hOK, hTS, hok, hts0]
    rfl
  · -- multi-group member with trigrams: one trigram entry, no own key
    rcases (mem_trigSupport store _ i).mp hi2 with ⟨p, hp, hkept⟩
    rcases List.mem_filterMap.mp hp with ⟨S, hSmem, hfS⟩
    by_cases hm : 1 < (pruned (groupOf (resolveList pack top) S)).length
    · rw [if_pos hm] at hfS
      cases hfS
      rcases List.mem_filter.mp hkept with ⟨hiG, hitr⟩
      obtain ⟨hilist, hiscript⟩ := mem_pruned_groupOf _ S i hiG
      have hnotjpn : i.iso6393 ≠ "jpn" := by
        refine hjpn i hilist ?_
        rw [hiscript]
        exact hm
      have hts1 : (multiPairs (fun k => pruned (groupOf (resolveList pack top) k))
          (scriptKeys (resolveList pack top))).filterMap
          (fun p => if (getKey (groupObjFrom store [] p.2) i.iso6393).isSome
                    then some p.1 else none) = [S] :=
        trigram_filter_single _ store i.iso6393 S hdup hSmem hm ⟨i, hiG, rfl, hitr⟩
      have hok : (getKey (objSet acc.regs "jpn" (some (hira ++ "|" ++ kata)))
          i.iso6393).isSome = false := by
        rw [getKey_objSet_ne _ _ _ _ hnotjpn]
        rw [Bool.eq_false_iff]
        intro hsome
        rcases (hregs i.iso6393).mp hsome with hinit | hsg | hmk
        · simp [getKey] at hinit
        · rcases List.mem_map.mp hsg with ⟨j, hjsg, hjc⟩
          obtain ⟨k0, _, hk0notmulti, hjG⟩ := mem_sgList _ _ j hjsg
          obtain ⟨hjlist, hjscript⟩ := mem_pruned_groupOf _ k0 j hjG
          have heq := hdup j hjlist i hilist hjc
          rw [hjscript, hiscript] at heq
          rw [heq] at hk0notmulti
          exact hk0notmulti hm
        · have hink : i.iso6393 ∈ scriptKeys (resolveList pack top) := by
            rcases List.mem_filter.mp hmk with ⟨hk, _⟩
            exact hk
          exact hkeys i hilist hink
      rw [hOK, hTS, hok, hts1]
      rfl
    · rw [if_neg hm] at hfS
      cases hfS

def w1a : LanguageInfo := ⟨"aaa", "Aaaish", some 3, some "k1", some "S1"⟩

def w1b : LanguageInfo := ⟨"bbb", "Beeish", some 2, some "k2", some "S2"⟩

def w1c : LanguageInfo := ⟨"ccc", "Ceeish", some 1, some "k3", some "S2"⟩

def w1A : Artifacts :=
  match (generate c1E [w1a, w1b, w1c] ⟨-1, []⟩ c1Store).1 with
  | some (.ok A) => A
  | _ => default

/-- Witness for `coverage_law_amended` on a universe with one singleton
group and one two-member trigram group. -/
theorem coverage_law_amended_witness : coverageOK w1A = true :=
  coverage_law_amended c1E [w1a, w1b, w1c] ⟨-1, []⟩ c1Store w1A
    (by decide) (by decide) (by decide) (by rfl)

end Franc
